import Mathlib

/-!
Shallow embedding of the extraction and deduplication pipeline of
`src/google_script/research_paper_script.js`.  Strings are modelled as
Lean `String`/`List Char`; the JavaScript regular expressions and the
builtin `decodeURIComponent` are modelled character by character for the
ASCII range the pipeline works on.
-/

/-- Models the JavaScript `\s` character class (ASCII range): space, tab,
line feed, carriage return, vertical tab and form feed. -/
def isSpaceJS (c : Char) : Bool :=
  c = ' ' || c = '\t' || c = '\n' || c = '\r' || c = '\x0b' || c = '\x0c'

/-- Models the JavaScript `\w` character class: letters, digits, underscore. -/
def isWordJS (c : Char) : Bool :=
  ('a' ≤ c && c ≤ 'z') || ('A' ≤ c && c ≤ 'Z') || ('0' ≤ c && c ≤ '9') || c = '_'

/-- Character-list prefix test. -/
def isPrefixL : List Char → List Char → Bool
  | [], _ => true
  | _ :: _, [] => false
  | a :: as, b :: bs => a = b && isPrefixL as bs

/-- Character-list substring test: the needle is a prefix of some suffix
of the haystack. -/
def isInfixL (sub : List Char) : List Char → Bool
  | [] => sub.isEmpty
  | c :: cs => isPrefixL sub (c :: cs) || isInfixL sub cs

/-- Models `String.prototype.includes(sub)` of JavaScript: substring
containment. -/
def jsIncludes (s sub : String) : Bool :=
  isInfixL sub.toList s.toList

/-- The 26 upper-to-lower mappings of ASCII. -/
def lowerTable : List (Char × Char) :=
  [('A', 'a'), ('B', 'b'), ('C', 'c'), ('D', 'd'), ('E', 'e'), ('F', 'f'),
   ('G', 'g'), ('H', 'h'), ('I', 'i'), ('J', 'j'), ('K', 'k'), ('L', 'l'),
   ('M', 'm'), ('N', 'n'), ('O', 'o'), ('P', 'p'), ('Q', 'q'), ('R', 'r'),
   ('S', 's'), ('T', 't'), ('U', 'u'), ('V', 'v'), ('W', 'w'), ('X', 'x'),
   ('Y', 'y'), ('Z', 'z')]

/-- Models `String.prototype.toLowerCase()` per character on the ASCII
range: upper-case letters map to lower case, everything else is kept. -/
def toLowerJS (c : Char) : Char :=
  ((lowerTable.find? (fun p => p.1 = c)).map Prod.snd).getD c

/-- Models `String.prototype.trim()`: drop leading and trailing whitespace. -/
def trimJS (l : List Char) : List Char :=
  ((l.dropWhile isSpaceJS).reverse.dropWhile isSpaceJS).reverse

/-- String-level wrapper of `trimJS`. -/
def trimS (s : String) : String := String.mk (trimJS s.toList)

/-- Models `.replace(/\s+/g, ' ')`: every maximal run of whitespace is
replaced by a single space.  (The single space is emitted at the end of a
run; the output is the same either way.) -/
def collapseWS : List Char → List Char
  | [] => []
  | [c] => if isSpaceJS c then [' '] else [c]
  | c :: d :: rest =>
    if isSpaceJS c then
      if isSpaceJS d then collapseWS (d :: rest)
      else ' ' :: collapseWS (d :: rest)
    else c :: collapseWS (d :: rest)

/-- `normalizeTitleForComparison` from the source: lower-case, collapse
whitespace runs to single spaces, remove characters that are neither word
characters nor whitespace, trim.  (`.toString()` on a string is the
identity and is dropped.) -/
def normalizeL (l : List Char) : List Char :=
  trimJS (((collapseWS (l.map toLowerJS)).filter
    (fun c => isWordJS c || isSpaceJS c)))

/-- String-level `normalizeTitleForComparison` from the source. -/
def normalizeTitleForComparison (title : String) : String :=
  String.mk (normalizeL title.toList)

/-- A paper record as constructed by the extraction pipeline; the message
date is kept as an opaque string. -/
structure Paper where
  title : String
  author : String
  link : String
  date : String
  type : String
deriving DecidableEq, Repr

/-- The `typePriority` object literal of the source; lookup of any other
key yields `undefined`, modelled as `none`. -/
def typePriority (t : String) : Option Nat :=
  if t = "new_article" then some 1
  else if t = "citation" then some 2
  else if t = "related_research" then some 3
  else none

/-- Models `typePriority[a] < typePriority[b]` in JavaScript: a comparison
against `undefined` is `NaN < x` or `x < NaN`, which is `false`. -/
def prioLt (a b : String) : Bool :=
  match typePriority a, typePriority b with
  | some x, some y => decide (x < y)
  | _, _ => false

/-- JavaScript truthiness of a string: the empty string is falsy. -/
def jsTruthy (s : String) : Bool := s ≠ ""

/-- The merge step of `deduplicatePapers` on a duplicate key: first the
type is upgraded when the incoming record has a strictly higher priority,
then the author is appended unless already contained as a substring. -/
def mergePaper (existing p : Paper) : Paper :=
  let e1 :=
    if jsTruthy p.type && jsTruthy existing.type && prioLt p.type existing.type then
      { existing with type := p.type }
    else existing
  if jsIncludes e1.author p.author then e1
  else { e1 with author := e1.author ++ ", " ++ p.author }

/-- Association-list model of a JavaScript `Map` lookup (`get`). -/
def lookupKey {α : Type} : List (String × α) → String → Option α
  | [], _ => none
  | (k', v) :: rest, k => if k' = k then some v else lookupKey rest k

/-- In-place update of the first entry with the given key; like mutating
the object returned by `Map.get`. -/
def updateKey {α : Type} : List (String × α) → String → (α → α) → List (String × α)
  | [], _, _ => []
  | (k', v) :: rest, k, f =>
    if k' = k then (k', f v) :: rest else (k', v) :: updateKey rest k f

/-- Models `Map.set`: replace the value in place when the key exists,
otherwise append at the end (JavaScript `Map` preserves insertion order). -/
def setKey {α : Type} : List (String × α) → String → α → List (String × α)
  | [], k, v => [(k, v)]
  | (k', v') :: rest, k, v =>
    if k' = k then (k, v) :: rest else (k', v') :: setKey rest k v

/-- The single pass of `deduplicatePapers` over the input array, carrying
the `paperMap` keyed by normalized title. -/
def dedupLoop : List Paper → List (String × Paper) → List (String × Paper)
  | [], acc => acc
  | p :: rest, acc =>
    let k := normalizeTitleForComparison p.title
    match lookupKey acc k with
    | some _ => dedupLoop rest (updateKey acc k (fun e => mergePaper e p))
    | none => dedupLoop rest (acc ++ [(k, p)])

/-- `deduplicatePapers` from the source: `Array.from(paperMap.values())`
after the single pass. -/
def deduplicatePapers (papers : List Paper) : List Paper :=
  (dedupLoop papers []).map Prod.snd

/-- Identity key of a record under the title-keyed strategy. -/
def recordKey (p : Paper) : String := normalizeTitleForComparison p.title

/-- Priority number of a type for stating the merge theorems; members of
the closed set get their `typePriority` value. -/
def prioOf (t : String) : Nat := (typePriority t).getD 4

/-- The closed set of record types named by the specification. -/
def closedTypes : List String := ["new_article", "citation", "related_research"]

/-- Hexadecimal digit test, as accepted by percent escapes. -/
def isHexDigit (c : Char) : Bool :=
  c.isDigit || ('a' ≤ c && c ≤ 'f') || ('A' ≤ c && c ≤ 'F')

/-- Value of a hexadecimal digit. -/
def hexVal (c : Char) : Nat :=
  if c.isDigit then c.toNat - '0'.toNat
  else if 'a' ≤ c && c ≤ 'f' then c.toNat - 'a'.toNat + 10
  else c.toNat - 'A'.toNat + 10

/-- Models the builtin `decodeURIComponent` on the ASCII range: each
`%XX` escape with two hexadecimal digits decodes to the character with
that code, a `%` not followed by two hexadecimal digits is a malformed
escape and raises, modelled as `none`.  (Validation of multi-byte UTF-8
escape sequences is not modelled; the pipeline handles ASCII escapes.) -/
def decodeURIComponentL : List Char → Option (List Char)
  | [] => some []
  | '%' :: rest =>
    match rest with
    | a :: b :: rest' =>
      if isHexDigit a && isHexDigit b then
        (decodeURIComponentL rest').map
          (fun d => Char.ofNat (16 * hexVal a + hexVal b) :: d)
      else none
    | _ => none
  | c :: rest => (decodeURIComponentL rest).map (fun d => c :: d)

/-- One attempt of the regex `/[?&]url=([^&]+)/i` at the current
position: a `?` or `&`, the literal `url=` case-insensitively, then a
nonempty capture of characters other than `&`. -/
def urlParamAt : List Char → Option (List Char)
  | q :: u :: r :: l :: e :: rest =>
    if (q = '?' || q = '&') && u.toLower = 'u' && r.toLower = 'r'
        && l.toLower = 'l' && e = '=' then
      let cap := rest.takeWhile (fun c => c ≠ '&')
      if cap.isEmpty then none else some cap
    else none
  | _ => none

/-- Leftmost match of `/[?&]url=([^&]+)/i`: try the pattern at every
position from the left and return the first capture. -/
def findUrlParam : List Char → Option (List Char)
  | [] => none
  | c :: cs =>
    match urlParamAt (c :: cs) with
    | some v => some v
    | none => findUrlParam cs

/-- `extractActualUrl` from the source: extract the `url=` query
parameter and percent-decode it twice; a failing second decode keeps the
first result, a failing first decode (the outer `catch`) returns the
input, and a missing parameter returns the input. -/
def extractActualUrlL (s : List Char) : List Char :=
  match findUrlParam s with
  | none => s
  | some v =>
    match decodeURIComponentL v with
    | none => s
    | some d1 =>
      match decodeURIComponentL d1 with
      | none => d1
      | some d2 => d2

/-- String-level `extractActualUrl`. -/
def extractActualUrl (s : String) : String :=
  String.mk (extractActualUrlL s.toList)

/-- `getType` from the source: ordered substring checks on the subject;
note the first branch returns the literal string `citations`. -/
def getType (subject : String) : String :=
  if jsIncludes subject "new citations to articles" then "citations"
  else if jsIncludes subject "new related research" then "related_research"
  else if jsIncludes subject "new articles" then "new_article"
  else "new_article"

/-- Match a fixed lowercase literal case-insensitively at the head,
returning the remainder. -/
def stripLit : List Char → List Char → Option (List Char)
  | [], s => some s
  | _, [] => none
  | l :: ls, c :: cs => if c.toLower = l then stripLit ls cs else none

/-- Match `\s+` greedily at the head (at least one whitespace character),
returning the remainder.  The tokens that follow `\s+` in the modelled
patterns never start with whitespace, so the greedy maximal run is the
unique viable choice. -/
def stripWS1 : List Char → Option (List Char)
  | [] => none
  | c :: cs => if isSpaceJS c then some (cs.dropWhile isSpaceJS) else none

/-- Characters the JavaScript `.` metacharacter refuses to match. -/
def isDotExcluded (c : Char) : Bool := c = '\n' || c = '\r'

/-- Lazy capture `(.*?)` followed by a tail pattern: extend the capture
one character at a time, stopping at the first position where the tail
matches (the regex engine tries the shortest capture first). -/
def lazyCapture (tailM : List Char → Bool) : List Char → List Char → Option (List Char)
  | acc, s =>
    if tailM s then some acc.reverse
    else
      match s with
      | [] => none
      | c :: cs =>
        if isDotExcluded c then none else lazyCapture tailM (c :: acc) cs

/-- Tail of pattern 2, `/\s+-\s+new\s+related\s+research/i`. -/
def tailRelated (s : List Char) : Bool :=
  (do
    let s1 ← stripWS1 s
    let s2 ← stripLit ['-'] s1
    let s3 ← stripWS1 s2
    let s4 ← stripLit "new".toList s3
    let s5 ← stripWS1 s4
    let s6 ← stripLit "related".toList s5
    let s7 ← stripWS1 s6
    let _ ← stripLit "research".toList s7
    pure ()).isSome

/-- Tail of pattern 3, `/\s+-\s+new\s+articles/i`. -/
def tailNewArticles (s : List Char) : Bool :=
  (do
    let s1 ← stripWS1 s
    let s2 ← stripLit ['-'] s1
    let s3 ← stripWS1 s2
    let s4 ← stripLit "new".toList s3
    let s5 ← stripWS1 s4
    let _ ← stripLit "articles".toList s5
    pure ()).isSome

/-- Pattern 2 of `extractAuthorFromSubject`:
`/^(.*?)\s+-\s+new\s+related\s+research/i`, anchored at the start. -/
def relatedMatch (s : List Char) : Option (List Char) :=
  lazyCapture tailRelated [] s

/-- Pattern 3 of `extractAuthorFromSubject`:
`/^(.*?)\s+-\s+new\s+articles/i`, anchored at the start. -/
def newArticleMatch (s : List Char) : Option (List Char) :=
  lazyCapture tailNewArticles [] s

/-- End alternative `(?:\s+-|$)` of pattern 1: first try `\s+-`, then end
of input. -/
def citationEnd (s : List Char) : Bool :=
  (match stripWS1 s with
   | some s1 => s1.headD ' ' = '-'
   | none => false) || s.isEmpty

/-- One attempt of pattern 1,
`/(\d+)\s+new\s+citations\s+to\s+articles\s+by\s+(.*?)(?:\s+-|$)/i`, at
the current position; returns the second capture group.  Each greedy
token (`\d+`, `\s+`) is followed by a token of a disjoint character
class, so the maximal run is the unique viable choice. -/
def citationAttempt (s : List Char) : Option (List Char) := do
  let ds := s.takeWhile Char.isDigit
  if ds.isEmpty then none else
  let s1 := s.dropWhile Char.isDigit
  let s2 ← stripWS1 s1
  let s3 ← stripLit "new".toList s2
  let s4 ← stripWS1 s3
  let s5 ← stripLit "citations".toList s4
  let s6 ← stripWS1 s5
  let s7 ← stripLit "to".toList s6
  let s8 ← stripWS1 s7
  let s9 ← stripLit "articles".toList s8
  let s10 ← stripWS1 s9
  let s11 ← stripLit "by".toList s10
  let s12 ← stripWS1 s11
  lazyCapture citationEnd [] s12

/-- Leftmost match of pattern 1: try `citationAttempt` at every position
from the left. -/
def citationMatch : List Char → Option (List Char)
  | [] => none
  | c :: cs =>
    match citationAttempt (c :: cs) with
    | some r => some r
    | none => citationMatch cs

/-- `extractAuthorFromSubject` from the source: try the citation pattern,
then the related-research pattern, then the new-articles pattern, and
return the first capture trimmed; with no match return the empty
string. -/
def extractAuthorFromSubject (subject : String) : String :=
  match citationMatch subject.toList with
  | some cap => String.mk (trimJS cap)
  | none =>
    match relatedMatch subject.toList with
    | some cap => String.mk (trimJS cap)
    | none =>
      match newArticleMatch subject.toList with
      | some cap => String.mk (trimJS cap)
      | none => ""

/-- The `IGNORED_URLS` denylist of `getPapersFromDateRange`. -/
def IGNORED_URLS : List String :=
  ["scholar.google.com/scholar_alerts",
   "scholar.google.com/scholar_settings",
   "support.google.com",
   "google.com/intl/",
   "mail.google.com",
   "accounts.google.com"]

/-- The link filter of the body-extraction loop: the raw (still-wrapped)
URL must contain the domain marker and no denylist entry. -/
def keepLink (url : String) : Bool :=
  jsIncludes url "scholar.google.com" && !(IGNORED_URLS.any fun ig => jsIncludes url ig)

/-- The body-extraction loop of `getPapersFromDateRange` over the anchor
matches `(url, text)` of one thread: each surviving match is pushed as a
record with the trimmed anchor text as title, the resolved URL as link,
and the thread-level author, date and type. -/
def collectLinks : List (String × String) → String → String → String → List Paper
  | [], _, _, _ => []
  | (url, text) :: rest, author, date, ptype =>
    if keepLink url then
      { title := trimS text, link := extractActualUrl url,
        author := author, date := date, type := ptype }
        :: collectLinks rest author date ptype
    else collectLinks rest author date ptype

/-- The lightweight representative record stored by `getExistingPapers`
for each persisted row: original title, author, type. -/
structure ExRec where
  title : String
  author : String
  type : String
deriving DecidableEq, Repr

/-- Column access on a persisted row, `row[i]`. -/
def getCol (r : List String) (i : Nat) : String := r.getD i ""

/-- `getExistingPapers` from the source: scan every sheet, skip the
header row, and for every row with a nonempty title column `set` the
normalized title to a representative record (later rows overwrite). -/
def getExistingPapers (sheets : List (List (List String))) : List (String × ExRec) :=
  sheets.foldl (fun m sheet =>
    (sheet.drop 1).foldl (fun m row =>
      if getCol row 1 ≠ "" then
        setKey m (normalizeTitleForComparison (getCol row 1))
          ⟨getCol row 1, getCol row 2, getCol row 0⟩
      else m) m) []

/-- The row written for one paper: `[type, title, author, link, date]`
(the date cell string is the record date). -/
def paperRow (p : Paper) : List String := [p.type, p.title, p.author, p.link, p.date]

/-- The fixed header of a partition. -/
def headerRow : List String := ["Type", "Title", "Author", "Link", "Date"]

/-- `writePapersToSheet` as seen by the store: the batch is appended
after a header into the week partition; a fresh partition models the run
landing in a week sheet created on demand.  `getExistingPapers` scans
every partition either way. -/
def writePapersToSheet (papers : List Paper) (sheets : List (List (List String))) :
    List (List (List String)) :=
  sheets ++ [headerRow :: papers.map paperRow]

/-- The merge performed by `processDateRange` when its filter finds an
index entry: author appended first unless already contained, then the
type upgraded on higher priority. -/
def mergeExRec (existing : ExRec) (p : Paper) : ExRec :=
  let e1 :=
    if jsIncludes existing.author p.author then existing
    else { existing with author := existing.author ++ ", " ++ p.author }
  if jsTruthy p.type && jsTruthy e1.type && prioLt p.type e1.type then
    { e1 with type := p.type }
  else e1

/-- The duplicate filter of `processDateRange`: each paper is looked up
in the existing-record index **by its link** (the index built by
`getExistingPapers` is keyed by normalized title); on a hit the index
entry is mutated and the paper dropped, on a miss the paper is kept.  The
index is never extended here. -/
def pdrFilter : List Paper → List (String × ExRec) → List Paper × List (String × ExRec)
  | [], m => ([], m)
  | p :: rest, m =>
    match lookupKey m p.link with
    | some _ => pdrFilter rest (updateKey m p.link (fun e0 => mergeExRec e0 p))
    | none =>
      let (acc, mF) := pdrFilter rest m
      (p :: acc, mF)

/-- `processDateRange` from the source, over the records extracted from
the mail for the range (first component: rows written in this run). -/
def processDateRange (papers : List Paper) (sheets : List (List (List String))) :
    List Paper × List (List (List String)) :=
  if papers.isEmpty then ([], sheets)
  else
    let existing := getExistingPapers sheets
    let uniq := (pdrFilter papers existing).1
    let finalPapers := deduplicatePapers uniq
    if finalPapers.isEmpty then (finalPapers, sheets)
    else (finalPapers, writePapersToSheet finalPapers sheets)

/-- The chunk loop bounds of `processFromApril2025`, on day numbers:
while `from < to`, the chunk end is `from + 6` clipped at `to`, and the
next chunk starts one day after the previous end. -/
def backfillChunks (f t : Nat) : List (Nat × Nat) :=
  if h : f < t then
    (f, min (f + 6) t) :: backfillChunks (min (f + 6) t + 1) t
  else []
termination_by t - f
decreasing_by
  simp only [Nat.min_def]
  split <;> omega

/-- The merge performed by the backfill filter on an index hit: author
appended first unless already contained, then the type upgraded. -/
def indexMergePaper (existing p : Paper) : Paper :=
  let e1 :=
    if jsIncludes existing.author p.author then existing
    else { existing with author := existing.author ++ ", " ++ p.author }
  if jsTruthy p.type && jsTruthy e1.type && prioLt p.type e1.type then
    { e1 with type := p.type }
  else e1

/-- The per-chunk filter of `processFromApril2025` against the shared
existing-index keyed by link: on a hit the entry is merged and the paper
dropped; on a miss the paper is `set` into the index and kept. -/
def chunkFilter : List Paper → List (String × Paper) → List Paper × List (String × Paper)
  | [], m => ([], m)
  | p :: rest, m =>
    match lookupKey m p.link with
    | some _ => chunkFilter rest (updateKey m p.link (fun e0 => indexMergePaper e0 p))
    | none =>
      let (acc, mF) := chunkFilter rest (setKey m p.link p)
      (p :: acc, mF)

/-- The chunk loop of `processFromApril2025`: each chunk is filtered
against the shared index, deduplicated, and its surviving records written;
the updated index is carried to the next chunk.  Output: the written
batch of each chunk. -/
def runBackfillChunks : List (List Paper) → List (String × Paper) → List (List Paper)
  | [], _ => []
  | c :: cs, m =>
    let (acc, m') := chunkFilter c m
    deduplicatePapers acc :: runBackfillChunks cs m'

/-- Number of records in a batch carrying a given link. -/
def countLink (L : String) (ps : List Paper) : Nat :=
  (ps.filter (fun p => p.link = L)).length

/-- The record of the C1 failing input: one paper extracted from the
mail of the range. -/
def c1Paper : Paper :=
  ⟨"A Paper", "Jane", "https://example.com/paper", "2025/5/1", "new_article"⟩

/-- C1: the claim states that a second `processDateRange` run over the
same mail writes zero rows.  On the failing input of a single extracted
record, the first run writes its row, and the second run writes the very
same row again: `processDateRange` looks the record link up in the
existing-record index, which `getExistingPapers` keys by normalized
title, so the lookup never hits. -/
theorem c1_second_run_rewrites :
    (processDateRange [c1Paper] (processDateRange [c1Paper] []).2).1.length = 1 ∧
      (processDateRange [c1Paper] (processDateRange [c1Paper] []).2).1 ≠ [] := by
  constructor <;> decide

/-- C2: on the spec's own example subject, `getType` returns the string
`citations`, which is not a member of the closed type set
`{new_article, citation, related_research}` and has no `typePriority`
entry (so the merge-priority logic can never fire for it). -/
theorem c2_getType_returns_citations :
    getType "5 new citations to articles by Jane Roe - see more" = "citations" ∧
      "citations" ∉ closedTypes ∧ typePriority "citations" = none := by
  refine ⟨by decide, by decide, by decide⟩

/-- C3 counterexample: the claim asserts that a range spanning 20 days is
processed in exactly 4 chunks; the chunk loop of `processFromApril2025`
produces 3 chunks, under either convention for a 20-day span
(`to = from + 20` or `to = from + 19`). -/
theorem c3_counterexample :
    (backfillChunks 0 20).length = 3 ∧ (backfillChunks 0 20).length ≠ 4 ∧
      (backfillChunks 0 19).length = 3 ∧ (backfillChunks 0 19).length ≠ 4 := by
  have h20 : backfillChunks 0 20 = [(0, 6), (7, 13), (14, 20)] := by
    simp [backfillChunks, Nat.min_def]
  have h19 : backfillChunks 0 19 = [(0, 6), (7, 13), (14, 19)] := by
    simp [backfillChunks, Nat.min_def]
  rw [h20, h19]
  refine ⟨rfl, by decide, rfl, by decide⟩

/-- C3 amended: the backfill loop splits the range into consecutive
sub-ranges, each ending six days after its start clipped at the range
end, the next starting one day after the previous end; a range with
`to = from + 20` is processed in exactly 3 chunks, days 0-6, 7-13 and
14-20, the last ending exactly at the range end, and with `to = from + 19`
the final chunk is clipped to days 14-19. -/
theorem c3_amended :
    backfillChunks 0 20 = [(0, 6), (7, 13), (14, 20)] ∧
      backfillChunks 0 19 = [(0, 6), (7, 13), (14, 19)] := by
  constructor <;> simp [backfillChunks, Nat.min_def]

/-- C7: `extractActualUrl` returns the input unchanged when no `url=`
query parameter is present; returns the parameter decoded twice when both
decodes succeed; keeps the first decode when the second fails; and on the
spec's example resolves a singly-encoded and a doubly-encoded parameter
to `https://example.com/paper`. -/
theorem c7_url_resolver :
    (∀ s : String, findUrlParam s.toList = none → extractActualUrl s = s) ∧
    (∀ (s : String) (v d1 d2 : List Char), findUrlParam s.toList = some v →
      decodeURIComponentL v = some d1 → decodeURIComponentL d1 = some d2 →
      extractActualUrl s = String.mk d2) ∧
    (∀ (s : String) (v d1 : List Char), findUrlParam s.toList = some v →
      decodeURIComponentL v = some d1 → decodeURIComponentL d1 = none →
      extractActualUrl s = String.mk d1) ∧
    extractActualUrl
      "https://scholar.google.com/scholar_url?url=https%3A%2F%2Fexample.com%2Fpaper&hl=en"
      = "https://example.com/paper" ∧
    extractActualUrl
      "https://scholar.google.com/scholar_url?url=https%253A%252F%252Fexample.com%252Fpaper&hl=en"
      = "https://example.com/paper" := by
  refine ⟨?_, ?_, ?_, by decide, by decide⟩
  · intro s h
    simp only [extractActualUrl, extractActualUrlL, h]
    rfl
  · intro s v d1 d2 h1 h2 h3
    simp only [extractActualUrl, extractActualUrlL, h1, h2, h3]
  · intro s v d1 h1 h2 h3
    simp only [extractActualUrl, extractActualUrlL, h1, h2, h3]

/-- C7 witness: the three conditional parts of `c7_url_resolver`
instantiated at concrete inputs. -/
theorem c7_url_resolver_witness :
    extractActualUrl "no-param-here" = "no-param-here" ∧
      extractActualUrl "?url=a%2Fb" = "a/b" ∧
      extractActualUrl "?url=a%25" = "a%" := by
  refine ⟨c7_url_resolver.1 "no-param-here" (by decide), ?_, ?_⟩
  · exact c7_url_resolver.2.1 "?url=a%2Fb" "a%2Fb".toList "a/b".toList "a/b".toList
      (by decide) (by decide) (by decide)
  · exact c7_url_resolver.2.2.1 "?url=a%25" "a%25".toList "a%".toList
      (by decide) (by decide) (by decide)

/-- C8: the body-extraction loop emits exactly one record per anchor
whose raw URL passes `keepLink` (contains the domain marker and no
denylist entry); a `scholar_settings` link is excluded although it
contains the marker, and a `scholar_url?url=...` link is included. -/
theorem c8_link_filtering :
    (∀ (anchors : List (String × String)) (author date ptype : String),
      collectLinks anchors author date ptype =
        (anchors.filter fun a => keepLink a.1).map fun a =>
          { title := trimS a.2, link := extractActualUrl a.1,
            author := author, date := date, type := ptype }) ∧
    (keepLink "https://scholar.google.com/scholar_settings" = false ∧
      jsIncludes "https://scholar.google.com/scholar_settings" "scholar.google.com" = true) ∧
    keepLink
      "https://scholar.google.com/scholar_url?url=https%3A%2F%2Fexample.com%2Fpaper&hl=en"
      = true := by
  refine ⟨?_, ⟨by decide, by decide⟩, by decide⟩
  intro anchors author date ptype
  induction anchors with
  | nil => rfl
  | cons a rest ih =>
    obtain ⟨url, text⟩ := a
    cases h : keepLink url <;> simp [collectLinks, h, ih]

/-- C9: `extractAuthorFromSubject` tries the citation pattern, then the
related-research pattern, then the new-articles pattern, returning the
first capture trimmed; the spec's examples yield `John Doe` and
`Jane Roe`; with no pattern matching it returns the empty string (it is a
total function, so it never throws). -/
theorem c9_author_extraction :
    extractAuthorFromSubject "John Doe - new related research" = "John Doe" ∧
    extractAuthorFromSubject "5 new citations to articles by Jane Roe - see more"
      = "Jane Roe" ∧
    (∀ (s : String) (cap : List Char), citationMatch s.toList = some cap →
      extractAuthorFromSubject s = String.mk (trimJS cap)) ∧
    (∀ (s : String) (cap : List Char), citationMatch s.toList = none →
      relatedMatch s.toList = some cap →
      extractAuthorFromSubject s = String.mk (trimJS cap)) ∧
    (∀ (s : String) (cap : List Char), citationMatch s.toList = none →
      relatedMatch s.toList = none → newArticleMatch s.toList = some cap →
      extractAuthorFromSubject s = String.mk (trimJS cap)) ∧
    (∀ s : String, citationMatch s.toList = none → relatedMatch s.toList = none →
      newArticleMatch s.toList = none → extractAuthorFromSubject s = "") := by
  refine ⟨by decide, by decide, ?_, ?_, ?_, ?_⟩
  · intro s cap h1
    simp only [extractAuthorFromSubject, h1]
  · intro s cap h1 h2
    simp only [extractAuthorFromSubject, h1, h2]
  · intro s cap h1 h2 h3
    simp only [extractAuthorFromSubject, h1, h2, h3]
  · intro s h1 h2 h3
    simp only [extractAuthorFromSubject, h1, h2, h3]

/-- C9 witness: the conditional parts of `c9_author_extraction`
instantiated at concrete subjects. -/
theorem c9_author_extraction_witness :
    extractAuthorFromSubject "hello" = "" ∧
      extractAuthorFromSubject "X - new articles" = "X" := by
  constructor
  · exact c9_author_extraction.2.2.2.2.2 "hello" (by decide) (by decide) (by decide)
  · exact c9_author_extraction.2.2.2.2.1 "X - new articles" ['X']
      (by decide) (by decide) (by decide)

/-- The empty string is a substring of every string (the guard of the
author-append step is therefore always taken for an empty author). -/
theorem isInfixL_nil (l : List Char) : isInfixL [] l = true := by
  cases l <;> simp [isInfixL, isPrefixL]

/-- String-level form: `s.includes("")` is always `true`. -/
theorem jsIncludes_empty (s : String) : jsIncludes s "" = true := by
  have h : ("" : String).toList = [] := rfl
  rw [jsIncludes, h]
  exact isInfixL_nil _

/-- An entry of the updated association list is an old entry or the
updated image of an old entry with the written key. -/
theorem mem_updateKey {α : Type} (m : List (String × α)) (k : String) (f : α → α)
    (kv : String × α) (h : kv ∈ updateKey m k f) :
    kv ∈ m ∨ ∃ v, (k, v) ∈ m ∧ kv = (k, f v) := by
  induction m with
  | nil => simp [updateKey] at h
  | cons hd rest ih =>
    obtain ⟨k', v'⟩ := hd
    by_cases hk : k' = k
    · subst hk
      simp only [updateKey, if_pos rfl] at h
      rcases List.mem_cons.mp h with h1 | h1
      · exact Or.inr ⟨v', List.mem_cons_self _ _, h1⟩
      · exact Or.inl (List.mem_cons_of_mem _ h1)
    · simp only [updateKey, if_neg hk] at h
      rcases List.mem_cons.mp h with h1 | h1
      · exact Or.inl (h1 ▸ List.mem_cons_self _ _)
      · rcases ih h1 with h2 | ⟨v, hv, he⟩
        · exact Or.inl (List.mem_cons_of_mem _ h2)
        · exact Or.inr ⟨v, List.mem_cons_of_mem _ hv, he⟩

/-- The merge step never appends an empty author. -/
theorem mergePaper_author_of_empty (e p : Paper) (h : p.author = "") :
    (mergePaper e p).author = e.author := by
  unfold mergePaper
  rw [h]
  split <;> simp [jsIncludes_empty]

/-- Through the whole dedup pass, if every incoming record and every
accumulated entry has an empty author, every produced record does. -/
theorem dedupLoop_empty_author (rest : List Paper) :
    ∀ acc : List (String × Paper),
      (∀ p ∈ rest, p.author = "") → (∀ kv ∈ acc, (Prod.snd kv).author = "") →
      ∀ q ∈ (dedupLoop rest acc).map Prod.snd, q.author = "" := by
  induction rest with
  | nil =>
    intro acc _ hacc q hq
    simp only [dedupLoop, List.mem_map] at hq
    obtain ⟨kv, hkv, rfl⟩ := hq
    exact hacc kv hkv
  | cons p rest ih =>
    intro acc hrest hacc q hq
    have hp : p.author = "" := hrest p (List.mem_cons_self _ _)
    have hrest' : ∀ r ∈ rest, r.author = "" :=
      fun r hr => hrest r (List.mem_cons_of_mem _ hr)
    simp only [dedupLoop] at hq
    cases hl : lookupKey acc (normalizeTitleForComparison p.title) with
    | some e =>
      rw [hl] at hq
      refine ih _ hrest' ?_ q hq
      intro kv hkv
      rcases mem_updateKey _ _ _ kv hkv with h1 | ⟨v, hv, rfl⟩
      · exact hacc kv h1
      · simpa [mergePaper_author_of_empty v p hp] using hacc (_, v) hv
    | none =>
      rw [hl] at hq
      refine ih _ hrest' ?_ q hq
      intro kv hkv
      rcases List.mem_append.mp hkv with h1 | h1
      · exact hacc kv h1
      · simp only [List.mem_singleton] at h1
        rw [h1]
        exact hp

/-- C10: an empty-author record never changes the merged author of its
group (the substring guard always fires for the empty string), and a
batch all of whose records carry empty authors deduplicates to records
with empty authors: no stray comma separators are introduced. -/
theorem c10_empty_author :
    (∀ e p : Paper, p.author = "" → (mergePaper e p).author = e.author) ∧
    (∀ papers : List Paper, (∀ p ∈ papers, p.author = "") →
      ∀ q ∈ deduplicatePapers papers, q.author = "") := by
  refine ⟨mergePaper_author_of_empty, ?_⟩
  intro papers hp q hq
  exact dedupLoop_empty_author papers [] hp (by simp) q hq

/-- C10 witness: `c10_empty_author` applied at concrete records, both
for the merge step and for a two-record all-empty batch. -/
theorem c10_empty_author_witness :
    (mergePaper ⟨"T", "A", "L", "d", "citation"⟩ ⟨"T", "", "L2", "d", "new_article"⟩).author
        = "A" ∧
      (⟨"T", "", "L", "d", "new_article"⟩ : Paper).author = "" := by
  constructor
  · exact c10_empty_author.1 ⟨"T", "A", "L", "d", "citation"⟩
      ⟨"T", "", "L2", "d", "new_article"⟩ (by decide)
  · exact c10_empty_author.2
      [⟨"T", "", "L", "d", "citation"⟩, ⟨"T", "", "L2", "d", "new_article"⟩]
      (by decide) ⟨"T", "", "L", "d", "new_article"⟩ (by decide)

/-- Whether a character list starts with a whitespace character. -/
def startsSpace : List Char → Bool
  | [] => false
  | c :: _ => isSpaceJS c

/-- Two titles differ only by letter case and by the amount or kind of
whitespace inside each (nonempty) whitespace run: built from matching
non-whitespace characters equal up to case, and from matching nonempty
whitespace runs. -/
inductive WSEquiv : List Char → List Char → Prop
  | nil : WSEquiv [] []
  | char {c d : Char} {s t : List Char} (hc : isSpaceJS c = false)
      (hd : isSpaceJS d = false) (he : toLowerJS c = toLowerJS d)
      (h : WSEquiv s t) : WSEquiv (c :: s) (d :: t)
  | runs (r1 r2 : List Char) {s t : List Char}
      (h1 : r1 ≠ []) (h2 : r2 ≠ [])
      (ha : ∀ c ∈ r1, isSpaceJS c = true) (hb : ∀ c ∈ r2, isSpaceJS c = true)
      (h : WSEquiv s t) : WSEquiv (r1 ++ s) (r2 ++ t)

/-- Lower-casing never changes whether a character is whitespace. -/
theorem isSpaceJS_toLowerJS (c : Char) : isSpaceJS (toLowerJS c) = isSpaceJS c := by
  unfold toLowerJS
  cases hf : lowerTable.find? (fun p => p.1 = c) with
  | none => simp
  | some p =>
    have hmem : p ∈ lowerTable := List.mem_of_find?_eq_some hf
    have hpc : p.1 = c := by
      have := List.find?_some hf
      simpa using this
    rw [← hpc]
    show isSpaceJS p.2 = isSpaceJS p.1
    fin_cases hmem <;> rfl

/-- Prepending a non-whitespace character to the input prepends it to the
collapsed output. -/
theorem collapseWS_cons_nonspace (c : Char) (s : List Char) (h : isSpaceJS c = false) :
    collapseWS (c :: s) = c :: collapseWS s := by
  cases s with
  | nil => simp [collapseWS, h]
  | cons d rest => simp [collapseWS, h]

/-- Prepending a whitespace character collapses the whole leading run to
one space. -/
theorem collapseWS_cons_space (s : List Char) :
    ∀ c : Char, isSpaceJS c = true →
      collapseWS (c :: s) = ' ' :: collapseWS (s.dropWhile isSpaceJS) := by
  induction s with
  | nil => intro c hc; simp [collapseWS, hc, List.dropWhile]
  | cons d rest ih =>
    intro c hc
    cases hd : isSpaceJS d with
    | true => simp [collapseWS, hc, hd, List.dropWhile, ih d hd]
    | false => simp [collapseWS, hc, hd, List.dropWhile]

/-- Dropping leading whitespace skips over an all-whitespace prefix. -/
theorem dropWhile_append_spaces (r : List Char) (s : List Char)
    (h : ∀ c ∈ r, isSpaceJS c = true) :
    (r ++ s).dropWhile isSpaceJS = s.dropWhile isSpaceJS := by
  induction r with
  | nil => rfl
  | cons c cs ih =>
    have hc : isSpaceJS c = true := h c (List.mem_cons_self _ _)
    simp only [List.cons_append, List.dropWhile, hc]
    exact ih (fun x hx => h x (List.mem_cons_of_mem _ hx))

/-- Equivalent titles agree on whether they start with whitespace. -/
theorem wsEquiv_startsSpace {s t : List Char} (h : WSEquiv s t) :
    startsSpace s = startsSpace t := by
  cases h with
  | nil => rfl
  | char hc hd _ _ => simp [startsSpace, hc, hd]
  | runs r1 r2 h1 h2 ha hb _ =>
    obtain ⟨c, cs, rfl⟩ := List.exists_cons_of_ne_nil h1
    obtain ⟨d, ds, rfl⟩ := List.exists_cons_of_ne_nil h2
    simp [startsSpace, ha c (List.mem_cons_self _ _), hb d (List.mem_cons_self _ _)]

/-- If a list starts with no whitespace the leading `dropWhile` is the
identity on its lower-cased image. -/
theorem dropWhile_map_of_not_startsSpace (u : List Char) (h : startsSpace u = false) :
    (u.map toLowerJS).dropWhile isSpaceJS = u.map toLowerJS := by
  cases u with
  | nil => rfl
  | cons c cs =>
    have hc : isSpaceJS c = false := h
    simp [List.dropWhile, isSpaceJS_toLowerJS, hc]

/-- If a list starts with whitespace, its collapsed lower-cased image is
one space followed by the collapse of the remainder after the run. -/
theorem collapse_map_of_startsSpace (u : List Char) (h : startsSpace u = true) :
    collapseWS (u.map toLowerJS)
      = ' ' :: collapseWS ((u.map toLowerJS).dropWhile isSpaceJS) := by
  cases u with
  | nil => simp [startsSpace] at h
  | cons c cs =>
    have hc : isSpaceJS c = true := h
    have hc' : isSpaceJS (toLowerJS c) = true := by rw [isSpaceJS_toLowerJS]; exact hc
    rw [List.map_cons, collapseWS_cons_space _ _ hc']
    simp [List.dropWhile, hc']

/-- Collapsing the lower-cased image is invariant under `WSEquiv`. -/
theorem wsEquiv_collapse {s t : List Char} (h : WSEquiv s t) :
    collapseWS (s.map toLowerJS) = collapseWS (t.map toLowerJS) := by
  induction h with
  | nil => rfl
  | char hc hd he _ ih =>
    rw [List.map_cons, List.map_cons,
      collapseWS_cons_nonspace _ _ (by rw [isSpaceJS_toLowerJS]; exact hc),
      collapseWS_cons_nonspace _ _ (by rw [isSpaceJS_toLowerJS]; exact hd), he, ih]
  | runs r1 r2 h1 h2 ha hb hst ih =>
    obtain ⟨c, cs, rfl⟩ := List.exists_cons_of_ne_nil h1
    obtain ⟨d, ds, rfl⟩ := List.exists_cons_of_ne_nil h2
    rename_i s' t'
    have hc' : isSpaceJS (toLowerJS c) = true := by
      rw [isSpaceJS_toLowerJS]; exact ha c (List.mem_cons_self _ _)
    have hd' : isSpaceJS (toLowerJS d) = true := by
      rw [isSpaceJS_toLowerJS]; exact hb d (List.mem_cons_self _ _)
    have hcs : ∀ x ∈ cs.map toLowerJS, isSpaceJS x = true := by
      intro x hx
      obtain ⟨y, hy, rfl⟩ := List.mem_map.mp hx
      rw [isSpaceJS_toLowerJS]
      exact ha y (List.mem_cons_of_mem _ hy)
    have hds : ∀ x ∈ ds.map toLowerJS, isSpaceJS x = true := by
      intro x hx
      obtain ⟨y, hy, rfl⟩ := List.mem_map.mp hx
      rw [isSpaceJS_toLowerJS]
      exact hb y (List.mem_cons_of_mem _ hy)
    rw [List.cons_append, List.map_cons, List.map_append,
      collapseWS_cons_space _ _ hc',
      dropWhile_append_spaces _ _ hcs,
      List.cons_append, List.map_cons, List.map_append,
      collapseWS_cons_space _ _ hd',
      dropWhile_append_spaces _ _ hds]
    have hss : startsSpace s' = startsSpace t' := wsEquiv_startsSpace hst
    cases hs : startsSpace s' with
    | false =>
      rw [dropWhile_map_of_not_startsSpace s' hs,
        dropWhile_map_of_not_startsSpace t' (hss ▸ hs), ih]
    | true =>
      have h1 := collapse_map_of_startsSpace s' hs
      have h2 := collapse_map_of_startsSpace t' (hss ▸ hs)
      rw [h1, h2] at ih
      exact congrArg _ (List.cons.injEq .. ▸ ih).2

/-- C4 counterexample: the titles `a . b` and `a b` differ only by a
punctuation character and the amount of whitespace, yet the Title
Normalizer produces different keys: punctuation is stripped after
whitespace runs are collapsed, so the dot standing between two spaces
leaves a double space. -/
theorem c4_counterexample :
    normalizeTitleForComparison "a . b" ≠ normalizeTitleForComparison "a b" := by
  decide

/-- C4 amended: two titles that differ only by letter case or by the
amount or kind of whitespace within each whitespace run get identical
keys; stripping punctuation adjacent to word characters also preserves
the key on the spec's example, but a punctuation character standing alone
between whitespace does not (see the counterexample). -/
theorem c4_amended :
    (∀ s t : String, WSEquiv s.toList t.toList →
      normalizeTitleForComparison s = normalizeTitleForComparison t) ∧
    normalizeTitleForComparison "Deep Learning!!" = normalizeTitleForComparison "deep   learning" := by
  constructor
  · intro s t h
    unfold normalizeTitleForComparison normalizeL
    rw [wsEquiv_collapse h]
  · decide

/-- C4 witness: `c4_amended` applied to concrete titles differing by case
and by one whitespace run. -/
theorem c4_amended_witness :
    normalizeTitleForComparison "A  b" = normalizeTitleForComparison "a B" := by
  apply c4_amended.1
  show WSEquiv ['A', ' ', ' ', 'b'] ['a', ' ', 'B']
  exact .char (by decide) (by decide) (by decide)
    (.runs [' ', ' '] [' '] (by decide) (by decide) (by decide) (by decide)
      (.char (by decide) (by decide) (by decide) .nil))

/-- Looking up a key present on the left of an append. -/
theorem lookupKey_append_some {α : Type} {m : List (String × α)} {k : String} {v : α}
    (l : List (String × α)) (h : lookupKey m k = some v) :
    lookupKey (m ++ l) k = some v := by
  induction m with
  | nil => simp [lookupKey] at h
  | cons hd rest ih =>
    obtain ⟨k', v'⟩ := hd
    by_cases hk : k' = k
    · subst hk
      simp only [lookupKey, if_pos rfl] at h ⊢
      exact h
    · simp only [lookupKey, if_neg hk] at h ⊢
      exact ih h

/-- Looking up a key absent on the left of an append. -/
theorem lookupKey_append_none {α : Type} {m : List (String × α)} {k : String}
    (l : List (String × α)) (h : lookupKey m k = none) :
    lookupKey (m ++ l) k = lookupKey l k := by
  induction m with
  | nil => rfl
  | cons hd rest ih =>
    obtain ⟨k', v'⟩ := hd
    by_cases hk : k' = k
    · subst hk
      simp [lookupKey] at h
    · simp only [lookupKey, if_neg hk] at h ⊢
      exact ih h

/-- Updating a key maps its looked-up value. -/
theorem lookupKey_updateKey_self {α : Type} (m : List (String × α)) (k : String)
    (f : α → α) : lookupKey (updateKey m k f) k = Option.map f (lookupKey m k) := by
  induction m with
  | nil => rfl
  | cons hd rest ih =>
    obtain ⟨k', v'⟩ := hd
    by_cases hk : k' = k
    · subst hk
      simp [updateKey, lookupKey]
    · simp only [updateKey, if_neg hk, lookupKey, ih]

/-- Updating one key leaves the lookup of any other key unchanged. -/
theorem lookupKey_updateKey_ne {α : Type} (m : List (String × α)) {k k' : String}
    (f : α → α) (h : k' ≠ k) :
    lookupKey (updateKey m k f) k' = lookupKey m k' := by
  induction m with
  | nil => rfl
  | cons hd rest ih =>
    obtain ⟨k0, v0⟩ := hd
    by_cases hk : k0 = k
    · subst hk
      have : k0 ≠ k' := fun he => h he.symm
      simp [updateKey, lookupKey, this]
    · by_cases hk' : k0 = k'
      · subst hk'
        simp [updateKey, lookupKey, hk]
      · simp [updateKey, lookupKey, hk, hk', ih]

/-- Updating a value does not change the key list. -/
theorem map_fst_updateKey {α : Type} (m : List (String × α)) (k : String) (f : α → α) :
    (updateKey m k f).map Prod.fst = m.map Prod.fst := by
  induction m with
  | nil => rfl
  | cons hd rest ih =>
    obtain ⟨k', v'⟩ := hd
    by_cases hk : k' = k
    · subst hk
      simp [updateKey]
    · simp [updateKey, hk, ih]

/-- A lookup misses exactly when the key is not in the key list. -/
theorem lookupKey_eq_none_iff {α : Type} (m : List (String × α)) (k : String) :
    lookupKey m k = none ↔ k ∉ m.map Prod.fst := by
  induction m with
  | nil => simp [lookupKey]
  | cons hd rest ih =>
    obtain ⟨k', v'⟩ := hd
    by_cases hk : k' = k
    · subst hk
      simp [lookupKey]
    · have hk' : k ≠ k' := fun he => hk he.symm
      simp [lookupKey, hk, ih, hk']

/-- With distinct keys, every stored value is reachable by lookup. -/
theorem mem_map_snd_lookup {α : Type} {m : List (String × α)} {q : α}
    (hnd : (m.map Prod.fst).Nodup) (hq : q ∈ m.map Prod.snd) :
    ∃ k, lookupKey m k = some q := by
  induction m with
  | nil => simp at hq
  | cons hd rest ih =>
    obtain ⟨k0, v0⟩ := hd
    simp only [List.map_cons, List.nodup_cons] at hnd
    rcases List.mem_cons.mp hq with h1 | h1
    · exact ⟨k0, by simp [lookupKey, h1]⟩
    · obtain ⟨k, hk⟩ := ih hnd.2 h1
      have hkmem : k ∈ rest.map Prod.fst := by
        by_contra hcon
        rw [(lookupKey_eq_none_iff rest k).mpr hcon] at hk
        exact Option.noConfusion hk
      have hne : k0 ≠ k := fun he => hnd.1 (he ▸ hkmem)
      exact ⟨k, by simp [lookupKey, hne, hk]⟩

/-- Membership in the closed type set unfolded to an explicit disjunction. -/
theorem mem_closedTypes {a : String} (ha : a ∈ closedTypes) :
    a = "new_article" ∨ a = "citation" ∨ a = "related_research" := by
  simpa [closedTypes] using ha

/-- On the closed type set the JavaScript priority comparison is the
comparison of priority numbers. -/
theorem prioLt_closed {a b : String} (ha : a ∈ closedTypes) (hb : b ∈ closedTypes) :
    prioLt a b = decide (prioOf a < prioOf b) := by
  rcases mem_closedTypes ha with rfl | rfl | rfl <;>
    rcases mem_closedTypes hb with rfl | rfl | rfl <;> rfl

/-- Members of the closed type set are truthy strings. -/
theorem closed_truthy {a : String} (ha : a ∈ closedTypes) : jsTruthy a = true := by
  rcases mem_closedTypes ha with rfl | rfl | rfl <;> rfl

/-- The merge step preserves the first-seen title. -/
theorem mergePaper_title (e p : Paper) : (mergePaper e p).title = e.title := by
  simp only [mergePaper]
  split <;> split <;> rfl

/-- The merge step preserves the first-seen link. -/
theorem mergePaper_link (e p : Paper) : (mergePaper e p).link = e.link := by
  simp only [mergePaper]
  split <;> split <;> rfl

/-- The merge step preserves the identity key. -/
theorem recordKey_mergePaper (e p : Paper) :
    recordKey (mergePaper e p) = recordKey e := by
  unfold recordKey
  rw [mergePaper_title]

/-- On closed types the merged type is the higher-priority one. -/
theorem mergePaper_type (e p : Paper) (he : e.type ∈ closedTypes)
    (hp : p.type ∈ closedTypes) :
    (mergePaper e p).type
      = if prioOf p.type < prioOf e.type then p.type else e.type := by
  simp only [mergePaper]
  rw [closed_truthy hp, closed_truthy he, prioLt_closed hp he]
  by_cases h : prioOf p.type < prioOf e.type <;>
    simp only [h, decide_eq_true_eq, Bool.true_and, decide_True, decide_False,
      if_true, if_false, Bool.false_and, Bool.and_false, Bool.and_true,
      ite_true, ite_false, if_pos, decide_eq_false_iff_not, not_false_iff] <;>
    first
      | (split <;> rfl)
      | (simp [h] <;> split <;> rfl)

/-- Invariant of the dedup pass: with all types in the closed set, every
accumulator entry is keyed by its record's identity key, realizes the
type of some contributing record of its group, and carries a priority
number no larger than that of any processed group member; every processed
record's key is covered.  The conclusion transports the invariant to the
end of the pass. -/
theorem dedupLoop_grouped (rest : List Paper) :
    ∀ (done : List Paper) (acc : List (String × Paper)),
      (∀ q ∈ done ++ rest, q.type ∈ closedTypes) →
      (acc.map Prod.fst).Nodup →
      (∀ k e, lookupKey acc k = some e →
        k = recordKey e ∧ e.type ∈ closedTypes ∧
        (∃ q ∈ done, recordKey q = k ∧ q.type = e.type) ∧
        (∀ q ∈ done, recordKey q = k → prioOf e.type ≤ prioOf q.type)) →
      (∀ q ∈ done, (lookupKey acc (recordKey q)).isSome = true) →
      ((dedupLoop rest acc).map Prod.fst).Nodup ∧
      (∀ k e, lookupKey (dedupLoop rest acc) k = some e →
        k = recordKey e ∧ e.type ∈ closedTypes ∧
        (∃ q ∈ done ++ rest, recordKey q = k ∧ q.type = e.type) ∧
        (∀ q ∈ done ++ rest, recordKey q = k → prioOf e.type ≤ prioOf q.type)) := by
  induction rest with
  | nil =>
    intro done acc hCT hnd hinv hcov
    simp only [dedupLoop, List.append_nil]
    exact ⟨hnd, hinv⟩
  | cons p rest ih =>
    intro done acc hCT hnd hinv hcov
    have hpCT : p.type ∈ closedTypes := hCT p (by simp)
    have hCT' : ∀ q ∈ (done ++ [p]) ++ rest, q.type ∈ closedTypes := by
      intro q hq
      apply hCT
      simpa [List.append_assoc] using hq
    cases hl : lookupKey acc (normalizeTitleForComparison p.title) with
    | some e =>
      have hstep : dedupLoop (p :: rest) acc
          = dedupLoop rest (updateKey acc (normalizeTitleForComparison p.title)
              (fun e0 => mergePaper e0 p)) := by
        simp only [dedupLoop, hl]
      rw [hstep]
      obtain ⟨hke, heCT, hex, hmin⟩ := hinv _ e hl
      have hnd' : ((updateKey acc (normalizeTitleForComparison p.title)
          (fun e0 => mergePaper e0 p)).map Prod.fst).Nodup := by
        rw [map_fst_updateKey]
        exact hnd
      have hmergedCT : (mergePaper e p).type ∈ closedTypes := by
        rw [mergePaper_type e p heCT hpCT]
        split
        · exact hpCT
        · exact heCT
      have hmle : prioOf (mergePaper e p).type ≤ prioOf e.type := by
        rw [mergePaper_type e p heCT hpCT]
        split <;> omega
      have hmlp : prioOf (mergePaper e p).type ≤ prioOf p.type := by
        rw [mergePaper_type e p heCT hpCT]
        split <;> omega
      have hinv' : ∀ k e', lookupKey (updateKey acc (normalizeTitleForComparison p.title)
          (fun e0 => mergePaper e0 p)) k = some e' →
          k = recordKey e' ∧ e'.type ∈ closedTypes ∧
          (∃ q ∈ done ++ [p], recordKey q = k ∧ q.type = e'.type) ∧
          (∀ q ∈ done ++ [p], recordKey q = k → prioOf e'.type ≤ prioOf q.type) := by
        intro k e' hle
        by_cases hk : k = normalizeTitleForComparison p.title
        · subst hk
          rw [lookupKey_updateKey_self, hl] at hle
          have he' : e' = mergePaper e p := by
            simpa using hle.symm
          subst he'
          refine ⟨by rw [recordKey_mergePaper]; exact hke, hmergedCT, ?_, ?_⟩
          · rw [mergePaper_type e p heCT hpCT]
            split
            · exact ⟨p, by simp, rfl, rfl⟩
            · obtain ⟨q, hqd, hqk, hqt⟩ := hex
              exact ⟨q, by simp [hqd], hqk, hqt⟩
          · intro q hq hqk
            rcases List.mem_append.mp hq with hq1 | hq1
            · exact le_trans hmle (hmin q hq1 hqk)
            · have hqp : q = p := by simpa using hq1
              subst hqp
              exact hmlp
        · rw [lookupKey_updateKey_ne _ _ hk] at hle
          obtain ⟨hke2, heCT2, hex2, hmin2⟩ := hinv k e' hle
          refine ⟨hke2, heCT2, ?_, ?_⟩
          · obtain ⟨q, hqd, hqk, hqt⟩ := hex2
            exact ⟨q, List.mem_append.mpr (Or.inl hqd), hqk, hqt⟩
          · intro q hq hqk
            rcases List.mem_append.mp hq with hq1 | hq1
            · exact hmin2 q hq1 hqk
            · have hqp : q = p := by simpa using hq1
              subst hqp
              exact absurd hqk.symm hk
      have hcov' : ∀ q ∈ done ++ [p],
          (lookupKey (updateKey acc (normalizeTitleForComparison p.title)
            (fun e0 => mergePaper e0 p)) (recordKey q)).isSome = true := by
        intro q hq
        by_cases hk : recordKey q = normalizeTitleForComparison p.title
        · rw [hk, lookupKey_updateKey_self, hl]
          rfl
        · rw [lookupKey_updateKey_ne _ _ hk]
          rcases List.mem_append.mp hq with hq1 | hq1
          · exact hcov q hq1
          · have hqp : q = p := by simpa using hq1
            subst hqp
            exact absurd rfl hk
      have hmain := ih (done ++ [p]) _ hCT' hnd' hinv' hcov'
      simpa [List.append_assoc] using hmain
    | none =>
      have hstep : dedupLoop (p :: rest) acc
          = dedupLoop rest (acc ++ [(normalizeTitleForComparison p.title, p)]) := by
        simp only [dedupLoop, hl]
      rw [hstep]
      have hknotin : normalizeTitleForComparison p.title ∉ acc.map Prod.fst :=
        (lookupKey_eq_none_iff _ _).mp hl
      have hnd' : ((acc ++ [(normalizeTitleForComparison p.title, p)]).map Prod.fst).Nodup := by
        rw [List.map_append]
        refine List.Nodup.append hnd (by simp) ?_
        intro a ha hb
        simp only [List.map_cons, List.map_nil, List.mem_singleton] at hb
        exact hknotin (hb ▸ ha)
      have hinv' : ∀ k e', lookupKey (acc ++ [(normalizeTitleForComparison p.title, p)]) k
            = some e' →
          k = recordKey e' ∧ e'.type ∈ closedTypes ∧
          (∃ q ∈ done ++ [p], recordKey q = k ∧ q.type = e'.type) ∧
          (∀ q ∈ done ++ [p], recordKey q = k → prioOf e'.type ≤ prioOf q.type) := by
        intro k e' hle
        cases hacck : lookupKey acc k with
        | some v =>
          rw [lookupKey_append_some _ hacck] at hle
          have hv : v = e' := Option.some.inj hle
          subst hv
          obtain ⟨hke2, heCT2, hex2, hmin2⟩ := hinv k v hacck
          refine ⟨hke2, heCT2, ?_, ?_⟩
          · obtain ⟨q, hqd, hqk, hqt⟩ := hex2
            exact ⟨q, List.mem_append.mpr (Or.inl hqd), hqk, hqt⟩
          · intro q hq hqk
            rcases List.mem_append.mp hq with hq1 | hq1
            · exact hmin2 q hq1 hqk
            · have hqp : q = p := by simpa using hq1
              rw [hqp] at hqk
              rw [← hqk] at hacck
              rw [show lookupKey acc (recordKey p) = none from hl] at hacck
              exact Option.noConfusion hacck
        | none =>
          rw [lookupKey_append_none _ hacck] at hle
          by_cases hk : normalizeTitleForComparison p.title = k
          · subst hk
            simp only [lookupKey, if_pos rfl] at hle
            have he' : p = e' := Option.some.inj hle
            subst he'
            refine ⟨rfl, hpCT, ⟨p, by simp, rfl, rfl⟩, ?_⟩
            intro q hq hqk
            rcases List.mem_append.mp hq with hq1 | hq1
            · have h1 := hcov q hq1
              rw [hqk] at h1
              rw [show lookupKey acc (normalizeTitleForComparison p.title) = none from hl] at h1
              simp at h1
            · have hqp : q = p := by simpa using hq1
              subst hqp
              exact le_refl _
          · simp [lookupKey, hk] at hle
      have hcov' : ∀ q ∈ done ++ [p],
          (lookupKey (acc ++ [(normalizeTitleForComparison p.title, p)])
            (recordKey q)).isSome = true := by
        intro q hq
        rcases List.mem_append.mp hq with hq1 | hq1
        · have h1 := hcov q hq1
          cases hx : lookupKey acc (recordKey q) with
          | none =>
            rw [hx] at h1
            simp at h1
          | some v =>
            rw [lookupKey_append_some _ hx]
            rfl
        · have hqp : q = p := by simpa using hq1
          rw [hqp]
          rw [show recordKey p = normalizeTitleForComparison p.title from rfl]
          rw [lookupKey_append_none _ hl]
          simp [lookupKey]
      have hmain := ih (done ++ [p]) _ hCT' hnd' hinv' hcov'
      simpa [List.append_assoc] using hmain

/-- C5: when every record of the batch carries a type from the closed
set, every record output by the deduplicator realizes the type of some
record of its identity group and carries a priority number no larger than
that of any group member: the minimum-priority (highest-priority) type of
the group. -/
theorem c5_type_priority (papers : List Paper)
    (hCT : ∀ p ∈ papers, p.type ∈ closedTypes) :
    ∀ q ∈ deduplicatePapers papers,
      (∃ p ∈ papers, recordKey p = recordKey q ∧ p.type = q.type) ∧
      (∀ p ∈ papers, recordKey p = recordKey q → prioOf q.type ≤ prioOf p.type) := by
  intro q hq
  have hmain := dedupLoop_grouped papers [] []
    (by simpa using hCT) (by simp)
    (by intro k e h; simp [lookupKey] at h) (by simp)
  obtain ⟨hnd, hprops⟩ := hmain
  obtain ⟨k, hk⟩ := mem_map_snd_lookup hnd hq
  obtain ⟨hkey, _, hex, hmin⟩ := hprops k q hk
  subst hkey
  constructor
  · simpa using hex
  · intro p hp hpk
    exact hmin p (by simpa using hp) hpk

/-- C5 witness: merging a `citation` and a `new_article` record sharing
an identity key yields a record whose priority number is at most that of
the citation record (`new_article`, priority 1, beats 2). -/
theorem c5_type_priority_witness :
    prioOf (Paper.mk "A Paper!" "Jane, John" "L1" "d" "new_article").type
      ≤ prioOf (Paper.mk "A Paper!" "Jane" "L1" "d" "citation").type := by
  exact (c5_type_priority
    [⟨"A Paper!", "Jane", "L1", "d", "citation"⟩,
     ⟨"a  paper", "John", "L2", "d", "new_article"⟩]
    (by decide)
    ⟨"A Paper!", "Jane, John", "L1", "d", "new_article"⟩ (by decide)).2
    ⟨"A Paper!", "Jane", "L1", "d", "citation"⟩ (by decide) (by decide)

/-- Setting a key makes it found. -/
theorem lookupKey_setKey_self {α : Type} (m : List (String × α)) (k : String) (v : α) :
    lookupKey (setKey m k v) k = some v := by
  induction m with
  | nil => simp [setKey, lookupKey]
  | cons hd rest ih =>
    obtain ⟨k', v'⟩ := hd
    by_cases hk : k' = k
    · subst hk
      simp [setKey, lookupKey]
    · simp [setKey, lookupKey, hk, ih]

/-- Setting a key leaves other lookups unchanged. -/
theorem lookupKey_setKey_ne {α : Type} (m : List (String × α)) {k k' : String} (v : α)
    (h : k' ≠ k) : lookupKey (setKey m k v) k' = lookupKey m k' := by
  induction m with
  | nil => simp [setKey, lookupKey, Ne.symm h]
  | cons hd rest ih =>
    obtain ⟨k0, v0⟩ := hd
    by_cases hk : k0 = k
    · subst hk
      have h0 : k0 ≠ k' := fun he => h he.symm
      simp [setKey, lookupKey, h0]
    · by_cases hk' : k0 = k'
      · subst hk'
        simp [setKey, lookupKey, hk]
      · simp [setKey, lookupKey, hk, hk', ih]

/-- The backfill index merge preserves the entry's link. -/
theorem indexMergePaper_link (e p : Paper) : (indexMergePaper e p).link = e.link := by
  simp only [indexMergePaper]
  split <;> split <;> rfl

/-- Unfolding of the per-link counter on a cons. -/
theorem countLink_cons (L : String) (p : Paper) (ps : List Paper) :
    countLink L (p :: ps) = (if p.link = L then 1 else 0) + countLink L ps := by
  by_cases h : p.link = L <;> simp [countLink, List.filter_cons, h] <;> omega

/-- The per-link counter distributes over append. -/
theorem countLink_append (L : String) (xs ys : List Paper) :
    countLink L (xs ++ ys) = countLink L xs + countLink L ys := by
  simp [countLink, List.filter_append]

/-- Updating an entry with a link-preserving function does not change the
per-link counter over the stored values. -/
theorem countLink_map_snd_updateKey (L : String) (m : List (String × Paper)) (k : String)
    (f : Paper → Paper) (hf : ∀ v, (f v).link = v.link) :
    countLink L ((updateKey m k f).map Prod.snd) = countLink L (m.map Prod.snd) := by
  induction m with
  | nil => rfl
  | cons hd rest ih =>
    obtain ⟨k', v'⟩ := hd
    by_cases hk : k' = k
    · subst hk
      simp [updateKey, List.map_cons, countLink_cons, hf]
    · simp only [updateKey, if_neg hk, List.map_cons, countLink_cons, ih]

/-- Across the dedup pass, the per-link count of the output is bounded by
the count over the accumulator values plus the count of the input. -/
theorem dedupLoop_countLink (L : String) (rest : List Paper) :
    ∀ acc : List (String × Paper),
      countLink L ((dedupLoop rest acc).map Prod.snd)
        ≤ countLink L (acc.map Prod.snd) + countLink L rest := by
  induction rest with
  | nil => intro acc; simp [dedupLoop, countLink]
  | cons p rest ih =>
    intro acc
    cases hl : lookupKey acc (normalizeTitleForComparison p.title) with
    | some e =>
      have hstep : dedupLoop (p :: rest) acc
          = dedupLoop rest (updateKey acc (normalizeTitleForComparison p.title)
              (fun e0 => mergePaper e0 p)) := by
        simp only [dedupLoop, hl]
      rw [hstep]
      refine le_trans (ih _) ?_
      rw [countLink_map_snd_updateKey L _ _ _ (fun v => mergePaper_link v p)]
      rw [countLink_cons]
      omega
    | none =>
      have hstep : dedupLoop (p :: rest) acc
          = dedupLoop rest (acc ++ [(normalizeTitleForComparison p.title, p)]) := by
        simp only [dedupLoop, hl]
      rw [hstep]
      refine le_trans (ih _) ?_
      rw [List.map_append]
      simp only [List.map_cons, List.map_nil]
      rw [countLink_append, countLink_cons, countLink_cons]
      simp only [countLink, List.filter_nil, List.length_nil]
      omega

/-- The deduplicator never increases the per-link count. -/
theorem deduplicatePapers_countLink (L : String) (ps : List Paper) :
    countLink L (deduplicatePapers ps) ≤ countLink L ps := by
  have h := dedupLoop_countLink L ps []
  simpa [deduplicatePapers, countLink] using h

/-- When the link is already in the shared index, the chunk filter
accepts no record with that link and keeps the link in the index. -/
theorem chunkFilter_hit (c : List Paper) :
    ∀ (m : List (String × Paper)) (L : String), (lookupKey m L).isSome = true →
      countLink L (chunkFilter c m).1 = 0 ∧
        (lookupKey (chunkFilter c m).2 L).isSome = true := by
  induction c with
  | nil => intro m L h; exact ⟨rfl, h⟩
  | cons p rest ih =>
    intro m L h
    cases hl : lookupKey m p.link with
    | some e =>
      have hstep : chunkFilter (p :: rest) m
          = chunkFilter rest (updateKey m p.link (fun e0 => indexMergePaper e0 p)) := by
        simp only [chunkFilter, hl]
      rw [hstep]
      refine ih _ L ?_
      by_cases hk : L = p.link
      · subst hk
        rw [lookupKey_updateKey_self, hl]
        rfl
      · rw [lookupKey_updateKey_ne _ _ hk]
        exact h
    | none =>
      have hne : L ≠ p.link := by
        intro he
        rw [he, hl] at h
        simp at h
      rcases hcf : chunkFilter rest (setKey m p.link p) with ⟨acc', m'⟩
      have hstep1 : (chunkFilter (p :: rest) m).1 = p :: acc' := by
        simp only [chunkFilter, hl, hcf]
      have hstep2 : (chunkFilter (p :: rest) m).2 = m' := by
        simp only [chunkFilter, hl, hcf]
      have hset : (lookupKey (setKey m p.link p) L).isSome = true := by
        rw [lookupKey_setKey_ne _ _ hne]
        exact h
      have hih := ih (setKey m p.link p) L hset
      rw [hcf] at hih
      refine ⟨?_, by rw [hstep2]; exact hih.2⟩
      rw [hstep1, countLink_cons]
      have hple : p.link ≠ L := fun he => hne he.symm
      simp only [hple, if_false]
      simpa using hih.1

/-- When the link is not yet in the shared index, the chunk filter
accepts at most one record with that link, and having accepted one it
records the link in the index. -/
theorem chunkFilter_miss (c : List Paper) :
    ∀ (m : List (String × Paper)) (L : String), lookupKey m L = none →
      countLink L (chunkFilter c m).1 ≤ 1 ∧
        (countLink L (chunkFilter c m).1 = 1 →
          (lookupKey (chunkFilter c m).2 L).isSome = true) := by
  induction c with
  | nil =>
    intro m L h
    refine ⟨by simp [chunkFilter, countLink], ?_⟩
    intro h1
    simp [chunkFilter, countLink] at h1
  | cons p rest ih =>
    intro m L h
    cases hl : lookupKey m p.link with
    | some e =>
      have hstep : chunkFilter (p :: rest) m
          = chunkFilter rest (updateKey m p.link (fun e0 => indexMergePaper e0 p)) := by
        simp only [chunkFilter, hl]
      rw [hstep]
      have hne : L ≠ p.link := by
        intro he
        rw [← he, h] at hl
        exact Option.noConfusion hl
      refine ih _ L ?_
      rw [lookupKey_updateKey_ne _ _ hne]
      exact h
    | none =>
      rcases hcf : chunkFilter rest (setKey m p.link p) with ⟨acc', m'⟩
      have hstep1 : (chunkFilter (p :: rest) m).1 = p :: acc' := by
        simp only [chunkFilter, hl, hcf]
      have hstep2 : (chunkFilter (p :: rest) m).2 = m' := by
        simp only [chunkFilter, hl, hcf]
      by_cases hpl : p.link = L
      · have hset : (lookupKey (setKey m p.link p) L).isSome = true := by
          rw [← hpl, lookupKey_setKey_self]
          rfl
        have hih := chunkFilter_hit rest (setKey m p.link p) L hset
        rw [hcf] at hih
        rw [hstep1, hstep2, countLink_cons, hih.1]
        simp only [hpl, if_pos rfl]
        exact ⟨le_refl _, fun _ => hih.2⟩
      · have hset : lookupKey (setKey m p.link p) L = none := by
          rw [lookupKey_setKey_ne _ _ (fun he => hpl he.symm)]
          exact h
        have hih := ih (setKey m p.link p) L hset
        rw [hcf] at hih
        rw [hstep1, hstep2, countLink_cons]
        simp only [hpl, if_false]
        simpa using hih

/-- Every record accepted by the chunk filter has its link in the
resulting index. -/
theorem chunkFilter_accepted_in_index (c : List Paper) :
    ∀ m : List (String × Paper), ∀ p ∈ (chunkFilter c m).1,
      (lookupKey (chunkFilter c m).2 p.link).isSome = true := by
  induction c with
  | nil => intro m p hp; simp [chunkFilter] at hp
  | cons q rest ih =>
    intro m p hp
    cases hl : lookupKey m q.link with
    | some e =>
      have hstep : chunkFilter (q :: rest) m
          = chunkFilter rest (updateKey m q.link (fun e0 => indexMergePaper e0 q)) := by
        simp only [chunkFilter, hl]
      rw [hstep] at hp ⊢
      exact ih _ p hp
    | none =>
      rcases hcf : chunkFilter rest (setKey m q.link q) with ⟨acc', m'⟩
      have hstep1 : (chunkFilter (q :: rest) m).1 = q :: acc' := by
        simp only [chunkFilter, hl, hcf]
      have hstep2 : (chunkFilter (q :: rest) m).2 = m' := by
        simp only [chunkFilter, hl, hcf]
      rw [hstep1] at hp
      rw [hstep2]
      rcases List.mem_cons.mp hp with h1 | h1
      · subst h1
        have hset : (lookupKey (setKey m p.link p) p.link).isSome = true := by
          rw [lookupKey_setKey_self]
          rfl
        have hih := chunkFilter_hit rest (setKey m p.link p) p.link hset
        rw [hcf] at hih
        exact hih.2
      · have h1' : p ∈ (chunkFilter rest (setKey m q.link q)).1 := by
          rw [hcf]
          exact h1
        have hih := ih (setKey m q.link q) p h1'
        rw [hcf] at hih
        exact hih

/-- Across a whole backfill run, a link already present in the initial
shared index is never written, and a fresh link is written at most once. -/
theorem runBackfill_at_most (chunks : List (List Paper)) :
    ∀ (m : List (String × Paper)) (L : String),
      countLink L (runBackfillChunks chunks m).flatten
        ≤ (if (lookupKey m L).isSome = true then 0 else 1) := by
  induction chunks with
  | nil =>
    intro m L
    simp only [runBackfillChunks, List.flatten_nil]
    split <;> simp [countLink]
  | cons c cs ih =>
    intro m L
    rcases hcf : chunkFilter c m with ⟨acc, m'⟩
    have hstep : runBackfillChunks (c :: cs) m
        = deduplicatePapers acc :: runBackfillChunks cs m' := by
      simp only [runBackfillChunks, hcf]
    rw [hstep, List.flatten_cons, countLink_append]
    have hdedup := deduplicatePapers_countLink L acc
    by_cases hs : (lookupKey m L).isSome = true
    · have hhit := chunkFilter_hit c m L hs
      rw [hcf] at hhit
      dsimp only at hhit
      have hih := ih m' L
      rw [if_pos hhit.2] at hih
      rw [if_pos hs]
      omega
    · have hm0 : lookupKey m L = none := by
        cases hx : lookupKey m L with
        | none => rfl
        | some v =>
          rw [hx] at hs
          simp at hs
      have hmiss := chunkFilter_miss c m L hm0
      rw [hcf] at hmiss
      dsimp only at hmiss
      have hih := ih m' L
      have hle1 : countLink L (runBackfillChunks cs m').flatten ≤ 1 := by
        refine le_trans hih ?_
        split <;> omega
      rw [if_neg hs]
      by_cases h1 : countLink L acc = 0
      · omega
      · have hone : countLink L acc = 1 := by omega
        have hsome := hmiss.2 hone
        rw [if_pos hsome] at hih
        omega

/-- C6: during one backfill run the shared index is extended with the
link of every record a chunk accepts, and consequently any fixed link is
written at most once across all chunks of the run: a duplicate link
appearing in an earlier and a later chunk is written only once. -/
theorem c6_cross_chunk_dedup :
    (∀ (c : List Paper) (m : List (String × Paper)),
      ((chunkFilter c m).1.all
        fun p => (lookupKey (chunkFilter c m).2 p.link).isSome) = true) ∧
    (∀ (chunks : List (List Paper)) (m : List (String × Paper)) (L : String),
      countLink L (runBackfillChunks chunks m).flatten ≤ 1) := by
  constructor
  · intro c m
    rw [List.all_eq_true]
    intro p hp
    exact chunkFilter_accepted_in_index c m p hp
  · intro chunks m L
    refine le_trans (runBackfill_at_most chunks m L) ?_
    split <;> omega
